import Mathlib

/-!
Verification development for the `codeedit` server (src/server/src/main.rs).

The core logic is embedded shallowly:

* Strings are modelled as `List Char` (`Str`), matching Rust `str` as a
  sequence of Unicode scalar values.  Byte offsets (Rust `str` indices) are
  recovered with an explicit UTF-8 encoder `utf8Bytes` / `strBytes`, so
  `find`-style byte columns are exact.
* File contents are modelled as the decoded text (`Str`).  The bytes on disk
  are `strBytes content`; this restricts the model to files whose bytes are
  valid UTF-8, on which `String::from_utf8_lossy` is the identity, so
  decoding is the identity in the model.  Zero bytes (NUL) are representable
  (`Char.ofNat 0` encodes to byte 0), which is what the binary heuristic
  needs.
* The directory walk (`walkdir::WalkDir`) is modelled by an explicit list of
  entries in traversal order; each entry records its full path string, its
  file-type, whether `fs::read` succeeds, and its content.
* The regex engine (`regex` crate) is abstracted by `RegexM`: `find` returns
  the byte offset of the first match of the compiled pattern, `isMatch`
  reports whether any match exists.  `perform_search` is parametrised by the
  compile step `Str → Option RegexM`, standing for
  `RegexBuilder::new(q).case_insensitive(true).build().ok()`.
* The filesystem seen by `get_file` / `save_file` is an association list
  from path strings to file contents; `fs::write` and `fs::rename` are total
  in the model (I/O failures are outside it).
-/

/-- Rust `str` modelled as its list of Unicode scalar values. -/
abbrev Str := List Char

/-- Convert a Lean string literal to the model representation. -/
def strToL (s : String) : Str := s.data

/-- UTF-8 encoding of a single scalar value, as byte values. -/
def utf8Bytes (c : Char) : List Nat :=
  let n := c.toNat
  if n < 0x80 then [n]
  else if n < 0x800 then [0xC0 + n / 0x40, 0x80 + n % 0x40]
  else if n < 0x10000 then
    [0xE0 + n / 0x1000, 0x80 + n / 0x40 % 0x40, 0x80 + n % 0x40]
  else
    [0xF0 + n / 0x40000, 0x80 + n / 0x1000 % 0x40,
     0x80 + n / 0x40 % 0x40, 0x80 + n % 0x40]

/-- Number of bytes a scalar value occupies in UTF-8. -/
def charBytes (c : Char) : Nat := (utf8Bytes c).length

/-- The UTF-8 bytes of a string: Rust `str::as_bytes`. -/
def strBytes (s : Str) : List Nat := s.flatMap utf8Bytes

/-- Rust `u8::to_ascii_lowercase` lifted to scalar values: only the ASCII
uppercase letters are changed, so byte lengths are preserved. -/
def asciiLowerChar (c : Char) : Char :=
  if 'A' ≤ c ∧ c ≤ 'Z' then Char.ofNat (c.toNat + 32) else c

/-- Rust `str::to_ascii_lowercase`. -/
def asciiLowerStr (s : Str) : Str := s.map asciiLowerChar

/-- The Unicode `White_Space` property, as used by Rust `char::is_whitespace`
(and hence `str::trim`). -/
def isRustWs (c : Char) : Bool :=
  let n := c.toNat
  (0x09 ≤ n ∧ n ≤ 0x0D) ∨ n = 0x20 ∨ n = 0x85 ∨ n = 0xA0 ∨ n = 0x1680 ∨
  (0x2000 ≤ n ∧ n ≤ 0x200A) ∨ n = 0x2028 ∨ n = 0x2029 ∨ n = 0x202F ∨
  n = 0x205F ∨ n = 0x3000

/-- Rust `str::trim`: remove leading and trailing whitespace. -/
def rustTrim (s : Str) : Str :=
  ((s.dropWhile isRustWs).reverse.dropWhile isRustWs).reverse

/-- Split a string at every newline character.  Always returns at least one
(possibly empty) segment; a trailing newline yields a trailing empty
segment. -/
def splitNl : Str → List Str
  | [] => [[]]
  | c :: rest =>
    if c = '\n' then [] :: splitNl rest
    else
      match splitNl rest with
      | [] => [[c]]
      | h :: t => (c :: h) :: t

/-- Strip one trailing carriage return, as Rust `lines` does to every
newline-terminated segment. -/
def stripCr (l : Str) : Str :=
  match l.reverse with
  | '\r' :: r => r.reverse
  | _ => l

/-- Rust `str::lines`: split at `'\n'`, strip a trailing `'\r'` from every
newline-terminated line, and do not produce a final empty line for a trailing
newline.  A final segment not terminated by `'\n'` keeps a bare trailing
`'\r'`, matching the standard library. -/
def rustLines (s : Str) : List Str :=
  match (splitNl s).reverse with
  | [] => []
  | last :: revInit =>
    if last = [] then (revInit.reverse).map stripCr
    else (revInit.reverse).map stripCr ++ [last]

/-- Split a path string at every `'/'`. -/
def splitSlash : Str → List Str
  | [] => [[]]
  | c :: rest =>
    if c = '/' then [] :: splitSlash rest
    else
      match splitSlash rest with
      | [] => [[c]]
      | h :: t => (c :: h) :: t

/-- The components of a path string, as in
`entry.path().components().map(|c| c.as_os_str().to_string_lossy())`:
the named segments of the path (empty segments produced by separators carry
no name). -/
def pathComponents (p : Str) : List Str :=
  (splitSlash p).filter (fun c => c ≠ [])

/-- First byte offset at which `pat` occurs in the remaining haystack,
counting from byte offset `ofs`. -/
def substrFindFrom (pat : Str) : Str → Nat → Option Nat
  | [], ofs => if pat = [] then some ofs else none
  | c :: rest, ofs =>
    if pat.isPrefixOf (c :: rest) then some ofs
    else substrFindFrom pat rest (ofs + charBytes c)

/-- Rust `str::find(&str)`: byte offset of the first occurrence of `pat` in
`hay`. -/
def substrFind (hay pat : Str) : Option Nat := substrFindFrom pat hay 0

/-- Rust `str::contains(&str)`. -/
def containsSub (hay pat : Str) : Bool := (substrFind hay pat).isSome

/-- Rust `str::ends_with(&str)`. -/
def endsWithL (s suffix : Str) : Bool := suffix.isSuffixOf s

/-- Rust `trim_start_matches('*')`: remove every leading `'*'`. -/
def dropStars (g : Str) : Str := g.dropWhile (fun c => c = '*')

/-- Rust `Path::join` for string paths (an absolute right operand replaces
the left one). -/
def joinPath (root rel : Str) : Str :=
  if root = [] then rel
  else if rel.head? = some '/' then rel
  else if root.getLast? = some '/' then root ++ rel
  else root ++ ['/'] ++ rel

/-- `entry.path().strip_prefix(root).unwrap_or(entry.path())`, rendered as a
string. -/
def relPath (root p : Str) : Str :=
  if p = root then []
  else if (root ++ ['/']).isPrefixOf p then p.drop (root.length + 1)
  else p

-- ### Scanner/Matcher (`perform_search`)

/-- A compiled case-insensitive regex, abstractly: `find` yields the byte
offset of the start of the first match, `isMatch` reports whether any match
exists. -/
structure RegexM where
  find : Str → Option Nat
  isMatch : Str → Bool

/-- One entry of the `WalkDir` traversal, in walk order: the full path
string, whether it is a regular file, whether `fs::read` succeeds, and the
(decoded) content. -/
structure Entry where
  path : Str
  isFile : Bool
  readOk : Bool
  content : Str
deriving DecidableEq

/-- The `SearchResult` record serialized to the caller. -/
structure SearchResult where
  file : Str
  line : Nat
  column : Nat
  preview : Str
deriving DecidableEq

/-- `is_binary`: any of the first 8192 bytes is zero. -/
def is_binary (data : List Nat) : Bool :=
  (data.take 8192).any (fun b => b == 0)

/-- The exclusion test of `perform_search`: some path component is exactly
one of the excluded names. -/
def excludedPath (p : Str) : Bool :=
  (pathComponents p).any (fun c =>
    c == strToL (".git") || c == strToL ("node_modules") ||
    c == strToL ("target") || c == strToL ("dist") || c == strToL ("codeedit"))

/-- The glob filter: with a (star-stripped) pattern present, the full path
string must end with it. -/
def globPass (globPat : Option Str) (p : Str) : Bool :=
  match globPat with
  | none => true
  | some g => endsWithL p g

/-- The three `continue` filters at the top of the walk body: regular file,
no excluded component, glob suffix. -/
def passesFilters (globPat : Option Str) (e : Entry) : Bool :=
  e.isFile && !(excludedPath e.path) && globPass globPat e.path

/-- Filename/path matching: regex `is_match` on the relative path, or
case-insensitive substring containment. -/
def pathMatched (re : Option RegexM) (qLower rel : Str) : Bool :=
  match re with
  | some r => r.isMatch rel
  | none => containsSub (asciiLowerStr rel) qLower

/-- Per-line matching: regex `find` (byte offset of the first match), or
`to_ascii_lowercase().find(&query_lower)`. -/
def findInLine (re : Option RegexM) (qLower line : Str) : Option Nat :=
  match re with
  | some r => r.find line
  | none => substrFind (asciiLowerStr line) qLower

/-- The record pushed on a filename match. -/
def fnameRecord (rel : Str) : SearchResult :=
  ⟨rel, 1, 1, strToL ("FILENAME MATCH: ") ++ rel⟩

/-- The content-matching loop over the lines of one file, carrying the
running result list; a push that brings the count above 2000 abandons the
remaining lines. -/
def scanLines (re : Option RegexM) (qLower rel : Str) (acc : List SearchResult) :
    List Str → Nat → List SearchResult
  | [], _ => acc
  | line :: rest, i =>
    match findInLine re qLower line with
    | none => scanLines re qLower rel acc rest (i + 1)
    | some col =>
      let acc1 := acc ++ [⟨rel, i + 1, col + 1, (rustTrim line).take 200⟩]
      if 2000 < acc1.length then acc1
      else scanLines re qLower rel acc1 rest (i + 1)

/-- The body of the walk loop for one entry.  Returns the new result list
and whether the walk stops (the `results.len() > 2000` check after content
matching; entries that `continue` earlier never reach that check). -/
def processEntry (re : Option RegexM) (qLower : Str) (globPat : Option Str)
    (root : Str) (e : Entry) (acc : List SearchResult) :
    List SearchResult × Bool :=
  if passesFilters globPat e then
    let rel := relPath root e.path
    let acc1 := if pathMatched re qLower rel then acc ++ [fnameRecord rel] else acc
    if e.readOk then
      if is_binary (strBytes e.content) then (acc1, false)
      else
        let acc2 := scanLines re qLower rel acc1 (rustLines e.content) 0
        (acc2, decide (2000 < acc2.length))
    else (acc1, false)
  else (acc, false)

/-- The walk loop over the remaining entries. -/
def searchLoop (re : Option RegexM) (qLower : Str) (globPat : Option Str)
    (root : Str) : List Entry → List SearchResult → List SearchResult
  | [], acc => acc
  | e :: rest, acc =>
    let st := processEntry re qLower globPat root e acc
    if st.2 then st.1 else searchLoop re qLower globPat root rest st.1

/-- `perform_search`, parametrised by the regex compiler and the walk. -/
def perform_search (compileRe : Str → Option RegexM) (root query : Str)
    (use_regex : Bool) (glob : Option Str) (entries : List Entry) :
    List SearchResult :=
  let re := if use_regex then compileRe query else none
  let qLower := asciiLowerStr query
  let globPat := glob.map dropStars
  searchLoop re qLower globPat root entries []

/-- An entry that passes the filters and matches by filename but skips
content scanning (unreadable or binary) bypasses the post-file length
check. -/
def skipsContentScan (globPat : Option Str) (e : Entry) : Bool :=
  passesFilters globPat e && (!e.readOk || is_binary (strBytes e.content))

-- ### Synchronized File Store (`safe_path`, `get_file`, `save_file`)

/-- The filesystem beneath the workspace root: an association list from full
path strings to file contents (first binding wins).  Only regular files are
modelled. -/
abbrev FS := List (Str × Str)

/-- `fs::read` (and `Path::exists` via `isSome`). -/
def fsRead (fs : FS) (p : Str) : Option Str :=
  (fs.find? (fun kv => kv.1 == p)).map (fun kv => kv.2)

/-- Remove every binding for `p`. -/
def fsErase (fs : FS) (p : Str) : FS :=
  fs.filter (fun kv => !(kv.1 == p))

/-- `fs::write`: create or replace the file at `p`. -/
def fsWrite (fs : FS) (p : Str) (content : Str) : FS :=
  (p, content) :: fsErase fs p

/-- `fs::rename src dst` (atomic replace of `dst` by `src`). -/
def fsRename (fs : FS) (src dst : Str) : FS :=
  match fsRead fs src with
  | none => fs
  | some content => fsWrite (fsErase fs src) dst content

/-- `safe_path`: reject any relative path containing `".."`, otherwise join
it to the root. -/
def safe_path (root : Str) (rel : Str) : Option Str :=
  if containsSub rel (strToL ("..")) then none else some (joinPath root rel)

/-- `Path::with_extension` for string paths whose final component is
nonempty (no trailing slash): the portion of the file name after its last
`'.'` is replaced by `ext`, a file name whose only `'.'` is its leading
character (or that has none) gets `'.' ++ ext` appended.  `ext` is assumed
nonempty (it is always `"tmp_save"` here). -/
def withExtensionStr (p ext : Str) : Str :=
  let rev := p.reverse.span (fun c => !(c == '/'))
  let dir := rev.2.reverse
  let fname := rev.1.reverse
  let spl := fname.reverse.span (fun c => !(c == '.'))
  let newF :=
    match spl.2 with
    | [] => fname ++ ['.'] ++ ext
    | [_] => fname ++ ['.'] ++ ext
    | _ :: revStem => revStem.reverse ++ ['.'] ++ ext
  dir ++ newF

/-- The temporary path used by `save_file`:
`path.with_extension("tmp_save")`. -/
def tmpPathOf (p : Str) : Str := withExtensionStr p (strToL ("tmp_save"))

/-- Outcome of `get_file`.  The `err` constructors model the `Err` branch of
the handler (HTTP 400 / 404 / 415); `ok` models the JSON body
`{content, etag}`. -/
inductive GetResult where
  | errInvalidPath
  | errNotFound
  | errUnsupported
  | ok (content : Str) (etag : Str)
deriving DecidableEq

/-- Outcome of `save_file`.  `errInvalidPath` models the `Err` branch (HTTP
400); `conflict` and `ok` both model the `Ok(Json ...)` branch, i.e. normal
result values (`{"status": "conflict"}` / `{"status": "ok", new_etag}`). -/
inductive SaveResult where
  | errInvalidPath
  | conflict
  | ok (newEtag : Str)
deriving DecidableEq

/-- `get_file`, parametrised by the content hash `etag` (standing for
`generate_etag`, a pure function of the bytes). -/
def get_file (etag : List Nat → Str) (fs : FS) (root rel : Str) : GetResult :=
  match safe_path root rel with
  | none => .errInvalidPath
  | some p =>
    match fsRead fs p with
    | none => .errNotFound
    | some s =>
      if is_binary (strBytes s) then .errUnsupported
      else .ok s (etag (strBytes s))

/-- The write path of `save_file` once the conflict check has passed: write
the new content to the temporary path, rename it over the destination, and
return the fingerprint of the new content. -/
def doSave (etag : List Nat → Str) (fs : FS) (p content : Str) :
    SaveResult × FS :=
  let tmp := tmpPathOf p
  let fs1 := fsWrite fs tmp content
  let fs2 := fsRename fs1 tmp p
  (.ok (etag (strBytes content)), fs2)

/-- `save_file`: validate the path, compare the current fingerprint against
the expected one when the file exists, and atomically replace on match (or
absence).  Returns the outcome together with the resulting filesystem. -/
def save_file (etag : List Nat → Str) (fs : FS) (root rel content expected : Str) :
    SaveResult × FS :=
  match safe_path root rel with
  | none => (.errInvalidPath, fs)
  | some p =>
    match fsRead fs p with
    | some cur =>
      if etag (strBytes cur) ≠ expected then (.conflict, fs)
      else doSave etag fs p content
    | none => doSave etag fs p content

-- ### Helper lemmas: file store

lemma fsRead_fsWrite_self (fs : FS) (p c : Str) :
    fsRead (fsWrite fs p c) p = some c := by
  simp [fsRead, fsWrite, List.find?_cons_of_pos]

lemma doSave_fst (etag : List Nat → Str) (fs : FS) (p c : Str) :
    (doSave etag fs p c).1 = SaveResult.ok (etag (strBytes c)) := rfl

lemma fsRead_doSave (etag : List Nat → Str) (fs : FS) (p c : Str) :
    fsRead (doSave etag fs p c).2 p = some c := by
  simp only [doSave, fsRename, fsRead_fsWrite_self]

-- ### Claim theorems: file store

/-- C1: with a validated path, `save_file` returns the `Conflict` outcome as
a normal result value and leaves the filesystem unchanged exactly when a
file exists at the resolved path and its current fingerprint differs from
the expected one; when the fingerprints match, or no file exists there, the
write proceeds and the new content is at the resolved path. -/
theorem save_file_conflict_semantics
    (etag : List Nat → Str) (fs : FS) (root rel content expected p : Str)
    (hp : safe_path root rel = some p) :
    (∀ cur, fsRead fs p = some cur → etag (strBytes cur) ≠ expected →
        save_file etag fs root rel content expected = (SaveResult.conflict, fs)) ∧
    (∀ cur, fsRead fs p = some cur → etag (strBytes cur) = expected →
        (save_file etag fs root rel content expected).1
            = SaveResult.ok (etag (strBytes content)) ∧
          fsRead (save_file etag fs root rel content expected).2 p
            = some content) ∧
    (fsRead fs p = none →
        (save_file etag fs root rel content expected).1
            = SaveResult.ok (etag (strBytes content)) ∧
          fsRead (save_file etag fs root rel content expected).2 p
            = some content) := by
  refine ⟨?_, ?_, ?_⟩
  · intro cur hcur hne
    simp [save_file, hp, hcur, hne]
  · intro cur hcur heq
    simp [save_file, hp, hcur, heq, doSave_fst, fsRead_doSave]
  · intro hnone
    simp [save_file, hp, hnone, doSave_fst, fsRead_doSave]

/-- Witness for C1: a stale fingerprint on an existing file yields the
conflict value and an unchanged store. -/
theorem save_file_conflict_semantics_witness :
    safe_path (strToL ("r")) (strToL ("f")) = some (strToL ("r/f")) ∧
    fsRead [(strToL ("r/f"), strToL ("old"))] (strToL ("r/f"))
      = some (strToL ("old")) ∧
    save_file (fun _ => strToL ("e")) [(strToL ("r/f"), strToL ("old"))]
        (strToL ("r")) (strToL ("f")) (strToL ("new")) (strToL ("stale"))
      = (SaveResult.conflict, [(strToL ("r/f"), strToL ("old"))]) := by
  refine ⟨by decide, by decide, ?_⟩
  exact (save_file_conflict_semantics (fun _ => strToL ("e"))
      [(strToL ("r/f"), strToL ("old"))] (strToL ("r")) (strToL ("f"))
      (strToL ("new")) (strToL ("stale")) (strToL ("r/f")) (by decide)).1
    (strToL ("old")) (by decide) (by decide)

/-- C2: a relative path containing `".."` anywhere is rejected by
`safe_path`, so `get_file` and `save_file` fail with the invalid-path error
for every filesystem (no filesystem access, store unchanged); a path without
`".."` is accepted and joined to the root.  `"a..b"` contains `".."`. -/
theorem dotdot_rejected_for_read_and_write
    (etag : List Nat → Str) (root rel content expected : Str) :
    (containsSub rel (strToL ("..")) = true →
       safe_path root rel = none ∧
       (∀ fs : FS, get_file etag fs root rel = GetResult.errInvalidPath) ∧
       (∀ fs : FS, save_file etag fs root rel content expected
           = (SaveResult.errInvalidPath, fs))) ∧
    (containsSub rel (strToL ("..")) = false →
       safe_path root rel = some (joinPath root rel)) ∧
    containsSub (strToL ("a..b")) (strToL ("..")) = true := by
  refine ⟨?_, ?_, by decide⟩
  · intro h
    refine ⟨by simp [safe_path, h], fun fs => ?_, fun fs => ?_⟩
    · simp [get_file, safe_path, h]
    · simp [save_file, safe_path, h]
  · intro h
    simp [safe_path, h]

/-- Witness for C2: `"../x"` is rejected by both operations, `"f"` is
accepted. -/
theorem dotdot_rejected_for_read_and_write_witness :
    containsSub (strToL ("../x")) (strToL ("..")) = true ∧
    safe_path (strToL ("r")) (strToL ("../x")) = none ∧
    get_file (fun _ => strToL ("e")) [] (strToL ("r")) (strToL ("../x"))
      = GetResult.errInvalidPath ∧
    save_file (fun _ => strToL ("e")) [] (strToL ("r")) (strToL ("../x"))
        (strToL ("c")) (strToL ("e"))
      = (SaveResult.errInvalidPath, []) ∧
    containsSub (strToL ("f")) (strToL ("..")) = false ∧
    safe_path (strToL ("r")) (strToL ("f"))
      = some (joinPath (strToL ("r")) (strToL ("f"))) := by
  have h := dotdot_rejected_for_read_and_write (fun _ => strToL ("e"))
    (strToL ("r")) (strToL ("../x")) (strToL ("c")) (strToL ("e"))
  have h2 := dotdot_rejected_for_read_and_write (fun _ => strToL ("e"))
    (strToL ("r")) (strToL ("f")) (strToL ("c")) (strToL ("e"))
  have ha := h.1 (by decide)
  exact ⟨by decide, ha.1, ha.2.1 [], ha.2.2 [], by decide, h2.2.1 (by decide)⟩

/-- C7 counterexample: writing a single NUL character succeeds and returns
the fingerprint of the new content, but the subsequent read of the same
path returns the unsupported-content error — not the content and
fingerprint — because the newly written bytes are classified binary.  So the
claimed read-back round trip fails as stated. -/
theorem save_then_read_nul_counterexample :
    (save_file (fun _ => strToL ("e")) [] (strToL ("r")) (strToL ("f"))
        [Char.ofNat 0] (strToL ("x"))).1
      = SaveResult.ok (strToL ("e")) ∧
    get_file (fun _ => strToL ("e"))
        (save_file (fun _ => strToL ("e")) [] (strToL ("r")) (strToL ("f"))
          [Char.ofNat 0] (strToL ("x"))).2
        (strToL ("r")) (strToL ("f"))
      = GetResult.errUnsupported := by
  constructor
  · decide
  · decide

/-- C7 amended: a successful write returns the fingerprint of the newly
written content, and — provided the new content's bytes are not classified
binary (no zero byte among the first 8192) — a subsequent read with no
intervening modification returns that content and that fingerprint. -/
theorem save_then_read_roundtrip
    (etag : List Nat → Str) (fs : FS) (root rel content expected f : Str)
    (hok : (save_file etag fs root rel content expected).1 = SaveResult.ok f) :
    f = etag (strBytes content) ∧
    (is_binary (strBytes content) = false →
      get_file etag (save_file etag fs root rel content expected).2 root rel
        = GetResult.ok content (etag (strBytes content))) := by
  have hcase : ∃ p, safe_path root rel = some p ∧
      save_file etag fs root rel content expected = doSave etag fs p content := by
    rcases hsp : safe_path root rel with _ | p
    · simp only [save_file, hsp] at hok
      exact absurd hok (by simp)
    · refine ⟨p, rfl, ?_⟩
      simp only [save_file, hsp]
      rcases hr : fsRead fs p with _ | cur
      · rfl
      · by_cases hne : etag (strBytes cur) ≠ expected
        · exfalso
          simp only [save_file, hsp, hr, if_pos hne] at hok
          exact absurd hok (by simp)
        · simp only [if_neg hne]
  rcases hcase with ⟨p, hsp, heq⟩
  have hok2 : SaveResult.ok (etag (strBytes content)) = SaveResult.ok f := by
    rw [heq, doSave_fst] at hok
    exact hok
  have hf : f = etag (strBytes content) := (SaveResult.ok.inj hok2).symm
  refine ⟨hf, fun hbin => ?_⟩
  rw [heq]
  simp [get_file, hsp, fsRead_doSave, hbin]

-- ### Helper lemmas: search

lemma any_zero_take : ∀ (l : List Nat) (n : Nat),
    ((l.take n).any (fun b => b == 0) = true) ↔ ∃ i, i < n ∧ l.get? i = some 0 := by
  intro l
  induction l with
  | nil =>
    intro n
    simp
  | cons b bs ih =>
    intro n
    cases n with
    | zero => simp
    | succ m =>
      simp only [List.take_succ_cons, List.any_cons, Bool.or_eq_true, beq_iff_eq, ih]
      constructor
      · rintro (hb | ⟨i, hi, hg⟩)
        · exact ⟨0, Nat.succ_pos m, by simp [hb]⟩
        · exact ⟨i + 1, Nat.succ_lt_succ hi, by simpa using hg⟩
      · rintro ⟨i, hi, hg⟩
        cases i with
        | zero =>
          left
          simpa using hg
        | succ j =>
          right
          exact ⟨j, Nat.lt_of_succ_lt_succ hi, by simpa using hg⟩

lemma dropStars_idem (g : Str) : dropStars (dropStars g) = dropStars g := by
  induction g with
  | nil => rfl
  | cons c r ih =>
    by_cases hc : c = '*'
    · simpa [dropStars, hc] using ih
    · simp [dropStars, hc]

-- ### Claim theorems: search filters

/-- C4: when regex compilation fails, `perform_search` does not abort and no
match comes from the regex engine: the search behaves exactly as in
non-regex (substring) mode. -/
theorem regex_compile_failure_fallback (compileRe : Str → Option RegexM)
    (root q : Str) (glob : Option Str) (entries : List Entry)
    (h : compileRe q = none) :
    perform_search compileRe root q true glob entries
      = perform_search compileRe root q false glob entries := by
  simp [perform_search, h]

/-- Witness for C4: an unbalanced parenthesis fails to compile; the search
still returns (substring-mode) results. -/
theorem regex_compile_failure_fallback_witness :
    (fun _ : Str => (none : Option RegexM)) (strToL ("(")) = none ∧
    perform_search (fun _ => none) (strToL ("r")) (strToL ("(")) true none
        [⟨strToL ("r/f.txt"), true, true, strToL ("a(b")⟩]
      = perform_search (fun _ => none) (strToL ("r")) (strToL ("(")) false none
        [⟨strToL ("r/f.txt"), true, true, strToL ("a(b")⟩] :=
  ⟨rfl, regex_compile_failure_fallback (fun _ => none) (strToL ("r"))
    (strToL ("(")) none [⟨strToL ("r/f.txt"), true, true, strToL ("a(b")⟩] rfl⟩

/-- C5: a candidate is excluded exactly when some individual path component
equals one of `.git`, `node_modules`, `target`, `dist`, `codeedit`; a
component merely containing such a name (`target_app`) is kept, and in a
workspace with both `target_app/f.txt` and `target/f.txt` matching, only the
`target_app` match is returned. -/
theorem exclusion_by_exact_component :
    (∀ p : Str, excludedPath p = true ↔
       ∃ c ∈ pathComponents p,
         c = strToL (".git") ∨ c = strToL ("node_modules") ∨
         c = strToL ("target") ∨ c = strToL ("dist") ∨ c = strToL ("codeedit")) ∧
    excludedPath (strToL ("r/target_app/f.txt")) = false ∧
    excludedPath (strToL ("r/target/f.txt")) = true ∧
    perform_search (fun _ => none) (strToL ("r")) (strToL ("hit")) false none
        [⟨strToL ("r/target_app/f.txt"), true, true, strToL ("hit")⟩,
         ⟨strToL ("r/target/f.txt"), true, true, strToL ("hit")⟩]
      = [⟨strToL ("target_app/f.txt"), 1, 1, strToL ("hit")⟩] := by
  refine ⟨?_, by decide, by decide, by decide⟩
  intro p
  simp only [excludedPath, List.any_eq_true, Bool.or_eq_true, beq_iff_eq]
  constructor
  · rintro ⟨c, hc, h⟩
    exact ⟨c, hc, by tauto⟩
  · rintro ⟨c, hc, h⟩
    exact ⟨c, hc, by tauto⟩

/-- C9: the glob parameter is a literal suffix filter: leading `'*'`
characters are stripped (`perform_search` behaves identically on `g` and on
its star-stripped form), and then an entry is processed exactly as without a
glob when its full path string ends with the remaining literal suffix, and
is discarded otherwise. -/
theorem glob_is_literal_suffix_filter :
    (∀ (re : Option RegexM) (qLower g root : Str) (e : Entry)
        (acc : List SearchResult),
       processEntry re qLower (some (dropStars g)) root e acc
         = if endsWithL e.path (dropStars g) = true
             then processEntry re qLower none root e acc
             else (acc, false)) ∧
    (∀ (compileRe : Str → Option RegexM) (root q : Str) (ur : Bool)
        (g : Str) (entries : List Entry),
       perform_search compileRe root q ur (some g) entries
         = perform_search compileRe root q ur (some (dropStars g)) entries) := by
  constructor
  · intro re qLower g root e acc
    by_cases hend : endsWithL e.path (dropStars g) = true
    · have hpf : passesFilters (some (dropStars g)) e = passesFilters none e := by
        simp [passesFilters, globPass, hend]
      simp only [processEntry, hpf, hend, if_true]
    · have hpf : passesFilters (some (dropStars g)) e = false := by
        simp only [Bool.not_eq_true] at hend
        simp [passesFilters, globPass, hend]
      simp [processEntry, hpf, hend]
  · intro compileRe root q ur g entries
    simp [perform_search, dropStars_idem]

/-- Witness for C9 (no hypotheses in the theorem; this instantiates it):
glob `*.rs` keeps `r/a.rs` and discards `r/a.txt`, and stripping is
idempotent at `perform_search` level. -/
theorem glob_is_literal_suffix_filter_witness :
    processEntry none (strToL ("a")) (some (dropStars (strToL ("*.rs"))))
        (strToL ("r")) ⟨strToL ("r/a.txt"), true, true, strToL ("a")⟩ []
      = if endsWithL (strToL ("r/a.txt")) (dropStars (strToL ("*.rs"))) = true
          then processEntry none (strToL ("a")) none (strToL ("r"))
            ⟨strToL ("r/a.txt"), true, true, strToL ("a")⟩ []
          else ([], false) :=
  glob_is_literal_suffix_filter.1 none (strToL ("a")) (strToL ("*.rs"))
    (strToL ("r")) ⟨strToL ("r/a.txt"), true, true, strToL ("a")⟩ []

/-- C6: a file is classified binary exactly when a zero byte occurs among
its first 8192 bytes; a binary file passing the filters contributes no
content match — only its filename match, when the relative path matches —
and does not reach the post-scan length check. -/
theorem binary_classification_skips_content :
    (∀ data : List Nat,
       is_binary data = true ↔ ∃ i, i < 8192 ∧ data.get? i = some 0) ∧
    (∀ (re : Option RegexM) (qLower : Str) (globPat : Option Str) (root : Str)
        (e : Entry) (acc : List SearchResult),
       passesFilters globPat e = true → e.readOk = true →
       is_binary (strBytes e.content) = true →
       processEntry re qLower globPat root e acc
         = (if pathMatched re qLower (relPath root e.path) = true
             then acc ++ [fnameRecord (relPath root e.path)] else acc, false)) := by
  constructor
  · intro data
    exact any_zero_take data 8192
  · intro re qLower globPat root e acc hpf hro hbin
    simp [processEntry, hpf, hro, hbin]

/-- Witness for C6: a file starting with a NUL byte whose name matches the
query yields exactly its filename match. -/
theorem binary_classification_skips_content_witness :
    passesFilters none (⟨strToL ("r/a.bin"), true, true, [Char.ofNat 0]⟩ : Entry)
        = true ∧
    is_binary (strBytes [Char.ofNat 0]) = true ∧
    processEntry none (strToL ("a")) none (strToL ("r"))
        ⟨strToL ("r/a.bin"), true, true, [Char.ofNat 0]⟩ []
      = (if pathMatched none (strToL ("a"))
            (relPath (strToL ("r")) (strToL ("r/a.bin"))) = true
          then [] ++ [fnameRecord (relPath (strToL ("r")) (strToL ("r/a.bin")))]
          else [], false) := by
  refine ⟨by decide, by decide, ?_⟩
  exact binary_classification_skips_content.2 none (strToL ("a")) none
    (strToL ("r")) ⟨strToL ("r/a.bin"), true, true, [Char.ofNat 0]⟩ []
    (by decide) (by decide) (by decide)

-- ### Helper lemmas: shape of emitted records

lemma scanLines_split (re : Option RegexM) (q rel : Str) :
    ∀ (lines : List Str) (i : Nat) (acc : List SearchResult),
    ∃ tail, scanLines re q rel acc lines i = acc ++ tail ∧
      (∀ r ∈ tail, ∃ k l c, lines.get? k = some l ∧
          findInLine re q l = some c ∧
          r = ⟨rel, i + k + 1, c + 1, (rustTrim l).take 200⟩) ∧
      tail.Pairwise (fun a b => a.line < b.line) ∧
      (∀ r ∈ tail, i + 1 ≤ r.line) := by
  intro lines
  induction lines with
  | nil =>
    intro i acc
    exact ⟨[], by simp [scanLines], by simp, by simp, by simp⟩
  | cons l rest ih =>
    intro i acc
    rcases hf : findInLine re q l with _ | c
    · rcases ih (i + 1) acc with ⟨tail, h1, h2, h3, h4⟩
      refine ⟨tail, ?_, ?_, h3, ?_⟩
      · simp only [scanLines, hf]
        exact h1
      · intro r hr
        rcases h2 r hr with ⟨k, l2, c2, hget, hfind, hrEq⟩
        refine ⟨k + 1, l2, c2, by simpa using hget, hfind, ?_⟩
        rw [hrEq]
        simp only [SearchResult.mk.injEq, and_true, true_and]
        omega
      · intro r hr
        have := h4 r hr
        omega
    · by_cases hlen :
        2000 < (acc ++ [(⟨rel, i + 1, c + 1, (rustTrim l).take 200⟩ : SearchResult)]).length
      · refine ⟨[⟨rel, i + 1, c + 1, (rustTrim l).take 200⟩], ?_, ?_, by simp, ?_⟩
        · simp only [scanLines, hf]
          rw [if_pos hlen]
        · intro r hr
          rw [List.mem_singleton] at hr
          subst hr
          exact ⟨0, l, c, by simp, hf, by simp⟩
        · intro r hr
          rw [List.mem_singleton] at hr
          subst hr
          simp
      · rcases ih (i + 1)
          (acc ++ [(⟨rel, i + 1, c + 1, (rustTrim l).take 200⟩ : SearchResult)])
          with ⟨tail, h1, h2, h3, h4⟩
        refine ⟨⟨rel, i + 1, c + 1, (rustTrim l).take 200⟩ :: tail, ?_, ?_, ?_, ?_⟩
        · simp only [scanLines, hf]
          rw [if_neg hlen, h1, List.append_assoc]
          rfl
        · intro r hr
          rcases List.mem_cons.1 hr with hr0 | hrT
          · subst hr0
            exact ⟨0, l, c, by simp, hf, by simp⟩
          · rcases h2 r hrT with ⟨k, l2, c2, hget, hfind, hrEq⟩
            refine ⟨k + 1, l2, c2, by simpa using hget, hfind, ?_⟩
            rw [hrEq]
            simp only [SearchResult.mk.injEq, and_true, true_and]
            omega
        · refine List.pairwise_cons.2 ⟨fun b hb => ?_, h3⟩
          have := h4 b hb
          simp only
          omega
        · intro r hr
          rcases List.mem_cons.1 hr with hr0 | hrT
          · subst hr0
            simp
          · have := h4 r hrT
            omega

-- ### Claim theorems: record shape

/-- C8: every record contributed by processing one entry is either the
filename-match record (line 1, column 1, preview `"FILENAME MATCH: "`
followed by the relative path) or a content-match record for some line `k`
(0-based) of the file: line number `k + 1`, column the match's byte offset
plus one, preview the line trimmed of whitespace and truncated to its first
200 characters; content records have strictly increasing line numbers, so at
most one per line.  Concretely, a multi-byte line shows the column counting
bytes while the preview keeps characters. -/
theorem match_record_shape :
    (∀ (re : Option RegexM) (qLower : Str) (globPat : Option Str) (root : Str)
        (e : Entry) (acc : List SearchResult),
      ∃ fn tail,
        (processEntry re qLower globPat root e acc).1 = acc ++ fn ++ tail ∧
        (fn = [] ∨ fn = [⟨relPath root e.path, 1, 1,
            strToL ("FILENAME MATCH: ") ++ relPath root e.path⟩]) ∧
        (∀ r ∈ tail, ∃ k l c, (rustLines e.content).get? k = some l ∧
            findInLine re qLower l = some c ∧
            r = ⟨relPath root e.path, k + 1, c + 1, (rustTrim l).take 200⟩) ∧
        tail.Pairwise (fun a b => a.line < b.line)) ∧
    perform_search (fun _ => none) (strToL ("r")) (strToL ("x")) false none
        [⟨strToL ("r/f"), true, true, strToL ("ééx")⟩]
      = [⟨strToL ("f"), 1, 5, strToL ("ééx")⟩] := by
  refine ⟨?_, by decide⟩
  intro re qLower globPat root e acc
  rcases hpf : passesFilters globPat e with _ | _
  · exact ⟨[], [], by simp [processEntry, hpf], Or.inl rfl, by simp, by simp⟩
  · rcases hpm : pathMatched re qLower (relPath root e.path) with _ | _
    · rcases hro : e.readOk with _ | _
      · exact ⟨[], [], by simp [processEntry, hpf, hpm, hro], Or.inl rfl,
          by simp, by simp⟩
      · rcases hbin : is_binary (strBytes e.content) with _ | _
        · rcases scanLines_split re qLower (relPath root e.path)
            (rustLines e.content) 0 acc with ⟨tail, h1, h2, h3, _⟩
          refine ⟨[], tail, ?_, Or.inl rfl, ?_, h3⟩
          · simp [processEntry, hpf, hpm, hro, hbin, h1]
          · intro r hr
            rcases h2 r hr with ⟨k, l, c, hget, hfind, hrEq⟩
            refine ⟨k, l, c, hget, hfind, ?_⟩
            rw [hrEq]
            simp only [SearchResult.mk.injEq, and_true, true_and]
            omega
        · exact ⟨[], [], by simp [processEntry, hpf, hpm, hro, hbin],
            Or.inl rfl, by simp, by simp⟩
    · rcases hro : e.readOk with _ | _
      · refine ⟨[fnameRecord (relPath root e.path)], [], ?_, Or.inr rfl,
          by simp, by simp⟩
        simp [processEntry, hpf, hpm, hro]
      · rcases hbin : is_binary (strBytes e.content) with _ | _
        · rcases scanLines_split re qLower (relPath root e.path)
            (rustLines e.content) 0 (acc ++ [fnameRecord (relPath root e.path)])
            with ⟨tail, h1, h2, h3, _⟩
          refine ⟨[fnameRecord (relPath root e.path)], tail, ?_, Or.inr rfl,
            ?_, h3⟩
          · simp only [processEntry, hpf, hpm, hro, hbin, if_true, if_false]
            simp [h1]
          · intro r hr
            rcases h2 r hr with ⟨k, l, c, hget, hfind, hrEq⟩
            refine ⟨k, l, c, hget, hfind, ?_⟩
            rw [hrEq]
            simp only [SearchResult.mk.injEq, and_true, true_and]
            omega
        · refine ⟨[fnameRecord (relPath root e.path)], [], ?_, Or.inr rfl,
            by simp, by simp⟩
          simp [processEntry, hpf, hpm, hro, hbin]

-- ### Helper lemmas: the result cap

lemma scanLines_length_le (re : Option RegexM) (q rel : Str) :
    ∀ (lines : List Str) (i : Nat) (acc : List SearchResult),
    (scanLines re q rel acc lines i).length ≤ max 2001 (acc.length + 1) := by
  intro lines
  induction lines with
  | nil =>
    intro i acc
    simp only [scanLines]
    omega
  | cons l rest ih =>
    intro i acc
    rcases hf : findInLine re q l with _ | c
    · simp only [scanLines, hf]
      have := ih (i + 1) acc
      omega
    · simp only [scanLines, hf]
      by_cases hlen : 2000 <
          (acc ++ [(⟨rel, i + 1, c + 1, (rustTrim l).take 200⟩ : SearchResult)]).length
      · rw [if_pos hlen]
        simp only [List.length_append, List.length_cons, List.length_nil]
        omega
      · rw [if_neg hlen]
        have := ih (i + 1)
          (acc ++ [(⟨rel, i + 1, c + 1, (rustTrim l).take 200⟩ : SearchResult)])
        simp only [List.length_append, List.length_cons, List.length_nil] at this hlen
        omega

lemma processEntry_bounds (re : Option RegexM) (q : Str) (gp : Option Str)
    (root : Str) (e : Entry) (acc : List SearchResult) :
    (skipsContentScan gp e = true →
       (processEntry re q gp root e acc).2 = false ∧
       (processEntry re q gp root e acc).1.length ≤ acc.length + 1) ∧
    (skipsContentScan gp e = false →
       ((processEntry re q gp root e acc).2 = false →
          (processEntry re q gp root e acc).1.length ≤ max acc.length 2000) ∧
       (processEntry re q gp root e acc).1.length ≤ max 2001 (acc.length + 2)) := by
  rcases hpf : passesFilters gp e with _ | _
  · have hskip : skipsContentScan gp e = false := by
      simp [skipsContentScan, hpf]
    refine ⟨fun h => absurd h (by simp [hskip]), fun _ => ?_⟩
    simp only [processEntry, hpf, Bool.false_eq_true, if_false]
    constructor
    · intro _
      omega
    · omega
  · have hacc1 : (if pathMatched re q (relPath root e.path)
        then acc ++ [fnameRecord (relPath root e.path)] else acc).length
          ≤ acc.length + 1 := by
      by_cases hpm : pathMatched re q (relPath root e.path) = true
      · simp [hpm]
      · simp only [Bool.not_eq_true] at hpm
        simp [hpm]
    rcases hro : e.readOk with _ | _
    · have hskip : skipsContentScan gp e = true := by
        simp [skipsContentScan, hpf, hro]
      refine ⟨fun _ => ?_, fun h => absurd hskip (by simp [h])⟩
      simp only [processEntry, hpf, hro, if_true, Bool.false_eq_true, if_false]
      exact ⟨by simp, hacc1⟩
    · rcases hbin : is_binary (strBytes e.content) with _ | _
      · have hskip : skipsContentScan gp e = false := by
          simp [skipsContentScan, hpf, hro, hbin]
        refine ⟨fun h => absurd h (by simp [hskip]), fun _ => ?_⟩
        simp only [processEntry, hpf, hro, hbin, if_true, Bool.false_eq_true,
          if_false]
        have hsc := scanLines_length_le re q (relPath root e.path)
          (rustLines e.content) 0
          (if pathMatched re q (relPath root e.path)
            then acc ++ [fnameRecord (relPath root e.path)] else acc)
        constructor
        · intro hstop
          rw [decide_eq_false_iff_not] at hstop
          omega
        · omega
      · have hskip : skipsContentScan gp e = true := by
          simp [skipsContentScan, hpf, hro, hbin]
        refine ⟨fun _ => ?_, fun h => absurd hskip (by simp [h])⟩
        simp only [processEntry, hpf, hro, hbin, if_true, if_false]
        exact ⟨by simp, hacc1⟩

lemma searchLoop_length_le (re : Option RegexM) (q : Str) (gp : Option Str)
    (root : Str) : ∀ (entries : List Entry) (acc : List SearchResult) (k : Nat),
    acc.length ≤ 2000 + k →
    (searchLoop re q gp root entries acc).length
      ≤ 2002 + k + entries.countP (skipsContentScan gp) := by
  intro entries
  induction entries with
  | nil =>
    intro acc k h
    simp only [searchLoop]
    omega
  | cons e rest ih =>
    intro acc k h
    have hb := processEntry_bounds re q gp root e acc
    rcases hstop : (processEntry re q gp root e acc).2 with _ | _
    · rcases hskip : skipsContentScan gp e with _ | _
      · have h2 := (hb.2 hskip).1 hstop
        have hrec := ih (processEntry re q gp root e acc).1 k (by omega)
        simp only [searchLoop, hstop, Bool.false_eq_true, if_false]
        simp only [List.countP_cons, hskip, if_false] at hrec ⊢
        omega
      · have h2 := (hb.1 hskip).2
        have hrec := ih (processEntry re q gp root e acc).1 (k + 1) (by omega)
        simp only [searchLoop, hstop, Bool.false_eq_true, if_false]
        simp only [List.countP_cons, hskip, if_true] at hrec ⊢
        omega
    · have hskip : skipsContentScan gp e = false := by
        rcases hs : skipsContentScan gp e with _ | _
        · rfl
        · exact absurd hstop (by simp [(hb.1 hs).1])
      have h2 := (hb.2 hskip).2
      simp only [searchLoop, hstop, if_true]
      have : 0 ≤ rest.countP (skipsContentScan gp) := Nat.zero_le _
      simp only [List.countP_cons, hskip, if_false]
      omega

-- ### Claim theorems: the result cap

/-- C3 amended: the traversal is abandoned once the running count exceeds
2000 at a checkpoint (after appending a content match, or after finishing a
file's content scan), but filename matches are appended without a cap check
and entries skipped before content scanning (unreadable or binary) bypass
the post-file checkpoint.  The resulting bound is 2002 plus the number of
such skipped entries — not 2001. -/
theorem result_cap_bound (compileRe : Str → Option RegexM) (root q : Str)
    (ur : Bool) (glob : Option Str) (entries : List Entry) :
    (perform_search compileRe root q ur glob entries).length
      ≤ 2002 + entries.countP (skipsContentScan (glob.map dropStars)) := by
  have := searchLoop_length_le (if ur then compileRe q else none)
    (asciiLowerStr q) (glob.map dropStars) root entries [] 0 (by simp)
  simpa [perform_search] using this

-- ### The cap can be exceeded: filename matches of binary files

lemma splitSlash_cons_slash (rest : Str) :
    splitSlash ('/' :: rest) = [] :: splitSlash rest := by
  rw [splitSlash, if_pos rfl]

lemma splitSlash_cons_ne (c : Char) (rest : Str) (hc : c ≠ '/') :
    splitSlash (c :: rest)
      = match splitSlash rest with
        | [] => [[c]]
        | h :: t => (c :: h) :: t := by
  rw [splitSlash, if_neg hc]

lemma splitSlash_no_slash : ∀ (l : Str), '/' ∉ l → splitSlash l = [l] := by
  intro l
  induction l with
  | nil => intro _; rfl
  | cons c rest ih =>
    intro h
    have hc : c ≠ '/' := fun hEq => h (hEq ▸ List.mem_cons_self c rest)
    have hr : '/' ∉ rest := fun hm => h (List.mem_cons_of_mem _ hm)
    rw [splitSlash_cons_ne c rest hc, ih hr]

lemma replicate_ne_of_head (i : Nat) (c : Char) (l : Str) (hc : c ≠ 'a') :
    (List.replicate (i + 1) 'a' == c :: l) = false := by
  apply beq_eq_false_iff_ne.2
  rw [List.replicate_succ]
  intro h
  exact hc (by injection h with h1 _; exact h1.symm)

lemma capEntry_path_not_excluded (i : Nat) :
    excludedPath ('r' :: '/' :: List.replicate (i + 1) 'a') = false := by
  have hnosl : '/' ∉ List.replicate (i + 1) 'a' := by
    intro hm
    exact absurd (List.eq_of_mem_replicate hm) (by decide)
  have hsplit : splitSlash ('r' :: '/' :: List.replicate (i + 1) 'a')
      = [['r'], List.replicate (i + 1) 'a'] := by
    rw [splitSlash_cons_ne 'r' _ (by decide), splitSlash_cons_slash,
      splitSlash_no_slash _ hnosl]
  rw [excludedPath, pathComponents, hsplit]
  have hrepl : List.replicate (i + 1) 'a' ≠ ([] : Str) := by
    rw [List.replicate_succ]
    exact List.cons_ne_nil _ _
  have hne : ∀ (c : Char) (l : Str), c ≠ 'a' →
      ¬ (List.replicate (i + 1) 'a' = c :: l) := by
    intro c l hc h
    rw [List.replicate_succ] at h
    injection h with h1 _
    exact hc h1.symm
  simp [hrepl, strToL, hne '.' _ (by decide), hne 'n' _ (by decide),
    hne 't' _ (by decide), hne 'd' _ (by decide), hne 'c' _ (by decide)]

lemma capEntry_path_matched (i : Nat) :
    pathMatched none (asciiLowerStr (strToL ("a")))
      (relPath (strToL ("r")) ('r' :: '/' :: List.replicate (i + 1) 'a'))
      = true := by
  have hrel : relPath (strToL ("r")) ('r' :: '/' :: List.replicate (i + 1) 'a')
      = List.replicate (i + 1) 'a' := by
    rw [relPath, if_neg (by simp [strToL]), if_pos (by simp [strToL, List.isPrefixOf])]
    simp [strToL]
  rw [hrel]
  have hlow : asciiLowerStr (List.replicate (i + 1) 'a')
      = List.replicate (i + 1) 'a' := by
    rw [asciiLowerStr, List.map_replicate,
      show asciiLowerChar 'a' = 'a' from by decide]
  rw [pathMatched, hlow, List.replicate_succ]
  simp [containsSub, substrFind, substrFindFrom, List.isPrefixOf, asciiLowerStr,
    asciiLowerChar]

/-- The traversal entries witnessing that the cap can be exceeded: 2002
regular binary files `r/a`, `r/aa`, ..., all of whose names contain the
query. -/
def capEntries : List Entry :=
  (List.range 2002).map (fun i =>
    ⟨'r' :: '/' :: List.replicate (i + 1) 'a', true, true, [Char.ofNat 0]⟩)

lemma searchLoop_all_fname (re : Option RegexM) (q : Str) (gp : Option Str)
    (root : Str) : ∀ (entries : List Entry) (acc : List SearchResult),
    (∀ e ∈ entries, skipsContentScan gp e = true ∧
       pathMatched re q (relPath root e.path) = true) →
    searchLoop re q gp root entries acc
      = acc ++ entries.map (fun e => fnameRecord (relPath root e.path)) := by
  intro entries
  induction entries with
  | nil =>
    intro acc _
    simp [searchLoop]
  | cons e rest ih =>
    intro acc h
    have he := h e (by simp)
    have hpf : passesFilters gp e = true := by
      have h1 := he.1
      rw [skipsContentScan, Bool.and_eq_true] at h1
      exact h1.1
    have hpr : processEntry re q gp root e acc
        = (acc ++ [fnameRecord (relPath root e.path)], false) := by
      have h1 := he.1
      rw [skipsContentScan, Bool.and_eq_true, Bool.or_eq_true] at h1
      rcases hro : e.readOk with _ | _
      · simp [processEntry, hpf, he.2, hro]
      · have hbin : is_binary (strBytes e.content) = true := by
          rcases h1.2 with h2 | h2
          · rw [hro] at h2
            exact absurd h2 (by simp)
          · exact h2
        simp [processEntry, hpf, he.2, hro, hbin]
    simp only [searchLoop, hpr, Bool.false_eq_true, if_false]
    rw [ih (acc ++ [fnameRecord (relPath root e.path)])
      (fun x hx => h x (List.mem_cons_of_mem _ hx))]
    simp

/-- C3 counterexample: a walk of 2002 binary files whose names all match the
query produces 2002 results — filename matches are never counted against the
cap, so the claimed bound of 2001 (and the claim that nothing is appended
once the count exceeds 2000) fails. -/
theorem result_cap_exceeded :
    2001 < (perform_search (fun _ => none) (strToL ("r")) (strToL ("a")) false
      none capEntries).length := by
  have hall : ∀ e ∈ capEntries, skipsContentScan none e = true ∧
      pathMatched none (asciiLowerStr (strToL ("a")))
        (relPath (strToL ("r")) e.path) = true := by
    intro e he
    rcases List.mem_map.1 he with ⟨i, _, rfl⟩
    refine ⟨?_, capEntry_path_matched i⟩
    rw [skipsContentScan]
    have hpf : passesFilters none
        (⟨'r' :: '/' :: List.replicate (i + 1) 'a', true, true,
          [Char.ofNat 0]⟩ : Entry) = true := by
      rw [passesFilters]
      simp [capEntry_path_not_excluded i, globPass]
    rw [hpf]
    simp [is_binary, strBytes, utf8Bytes]
  have hloop := searchLoop_all_fname none (asciiLowerStr (strToL ("a"))) none
    (strToL ("r")) capEntries [] hall
  have hres : perform_search (fun _ => none) (strToL ("r")) (strToL ("a")) false
      none capEntries
      = capEntries.map (fun e => fnameRecord (relPath (strToL ("r")) e.path)) := by
    rw [perform_search]
    simpa using hloop
  rw [hres]
  simp [capEntries]

-- ### Helper lemmas: `with_extension`

lemma span_all_stop {p : Char → Bool} :
    ∀ (l1 : Str) (c : Char) (l2 : Str), (∀ a ∈ l1, p a = true) → p c = false →
      (l1 ++ c :: l2).span p = (l1, c :: l2) := by
  intro l1
  induction l1 with
  | nil =>
    intro c l2 _ hc
    simp [List.span_eq_take_drop, List.takeWhile, List.dropWhile, hc]
  | cons a t ih =>
    intro c l2 h hc
    have ha : p a = true := h a (by simp)
    have ht := ih c l2 (fun x hx => h x (by simp [hx])) hc
    simp only [List.span_eq_take_drop, Prod.mk.injEq] at ht ⊢
    simp [List.takeWhile_cons, List.dropWhile_cons, ha, ht.1, ht.2]

lemma withExtensionStr_of_stem (d stem e ext : Str)
    (hstem : stem ≠ []) (hsS : '/' ∉ stem)
    (heD : '.' ∉ e) (heS : '/' ∉ e) :
    withExtensionStr (d ++ ['/'] ++ stem ++ ['.'] ++ e) ext
      = d ++ ['/'] ++ stem ++ ['.'] ++ ext := by
  have hrev : (d ++ ['/'] ++ stem ++ ['.'] ++ e).reverse
      = (e.reverse ++ '.' :: stem.reverse) ++ '/' :: d.reverse := by
    simp
  have hspan1 : ((e.reverse ++ '.' :: stem.reverse) ++ '/' :: d.reverse).span
      (fun c => !(c == '/')) = (e.reverse ++ '.' :: stem.reverse, '/' :: d.reverse) := by
    apply span_all_stop
    · intro a ha
      rcases List.mem_append.1 ha with h1 | h1
      · have : a ∈ e := List.mem_reverse.1 h1
        simp only [Bool.not_eq_true']
        exact beq_eq_false_iff_ne.2 (fun hEq => heS (hEq ▸ this))
      · rcases List.mem_cons.1 h1 with h2 | h2
        · simp [h2]
        · have : a ∈ stem := List.mem_reverse.1 h2
          simp only [Bool.not_eq_true']
          exact beq_eq_false_iff_ne.2 (fun hEq => hsS (hEq ▸ this))
    · simp
  rw [withExtensionStr]
  rw [hrev, hspan1]
  rcases hs : stem.reverse with _ | ⟨a, t⟩
  · exact absurd (by simpa using congrArg List.reverse hs) hstem
  · have hall : ∀ x ∈ e.reverse, (fun c => !(c == '.')) x = true := by
      intro x hx
      have hxe : x ∈ e := List.mem_reverse.1 hx
      simp only [Bool.not_eq_true']
      exact beq_eq_false_iff_ne.2 (fun hEq => heD (hEq ▸ hxe))
    have h3 := span_all_stop e.reverse '.' (a :: t) hall (by simp)
    rw [List.span_eq_take_drop, Prod.mk.injEq] at h3
    have hstem2 : stem = (a :: t).reverse := by rw [← hs, List.reverse_reverse]
    simp only [List.reverse_reverse, List.span_eq_take_drop, h3.2]
    simp [hstem2]

-- ### Claim theorems: temporary path

/-- C10: the temporary path of `save_file` is computed with
`Path::with_extension("tmp_save")`, which replaces the file name's final
extension rather than appending a suffix: any two destination paths in the
same directory whose file names share a stem and differ only in their final
extension yield the same temporary path, namely `dir/stem.tmp_save`. -/
theorem tmp_path_collision (d stem e1 e2 : Str)
    (hstem : stem ≠ []) (hsS : '/' ∉ stem)
    (h1d : '.' ∉ e1) (h1s : '/' ∉ e1) (h2d : '.' ∉ e2) (h2s : '/' ∉ e2) :
    tmpPathOf (d ++ ['/'] ++ stem ++ ['.'] ++ e1)
      = tmpPathOf (d ++ ['/'] ++ stem ++ ['.'] ++ e2) ∧
    tmpPathOf (d ++ ['/'] ++ stem ++ ['.'] ++ e1)
      = d ++ ['/'] ++ stem ++ ['.'] ++ strToL ("tmp_save") := by
  have w1 := withExtensionStr_of_stem d stem e1 (strToL ("tmp_save")) hstem hsS h1d h1s
  have w2 := withExtensionStr_of_stem d stem e2 (strToL ("tmp_save")) hstem hsS h2d h2s
  exact ⟨by rw [tmpPathOf, tmpPathOf, w1, w2], by rw [tmpPathOf, w1]⟩

/-- Witness for C10: `r/a.rs` and `r/a.txt` share the temporary path
`r/a.tmp_save`. -/
theorem tmp_path_collision_witness :
    tmpPathOf (strToL ("r") ++ ['/'] ++ strToL ("a") ++ ['.'] ++ strToL ("rs"))
      = tmpPathOf (strToL ("r") ++ ['/'] ++ strToL ("a") ++ ['.'] ++ strToL ("txt")) ∧
    tmpPathOf (strToL ("r") ++ ['/'] ++ strToL ("a") ++ ['.'] ++ strToL ("rs"))
      = strToL ("r") ++ ['/'] ++ strToL ("a") ++ ['.'] ++ strToL ("tmp_save") :=
  tmp_path_collision (strToL ("r")) (strToL ("a")) (strToL ("rs")) (strToL ("txt"))
    (by decide) (by decide) (by decide) (by decide) (by decide) (by decide)

/-- Witness for C7 amended: a plain-text write round-trips through
`get_file`. -/
theorem save_then_read_roundtrip_witness :
    (save_file (fun _ => strToL ("e")) [] (strToL ("r")) (strToL ("f"))
        (strToL ("new")) (strToL ("x"))).1 = SaveResult.ok (strToL ("e")) ∧
    is_binary (strBytes (strToL ("new"))) = false ∧
    get_file (fun _ => strToL ("e"))
        (save_file (fun _ => strToL ("e")) [] (strToL ("r")) (strToL ("f"))
          (strToL ("new")) (strToL ("x"))).2
        (strToL ("r")) (strToL ("f"))
      = GetResult.ok (strToL ("new"))
          ((fun _ => strToL ("e")) (strBytes (strToL ("new")))) := by
  refine ⟨by decide, by decide, ?_⟩
  exact (save_then_read_roundtrip (fun _ => strToL ("e")) [] (strToL ("r"))
    (strToL ("f")) (strToL ("new")) (strToL ("x")) (strToL ("e"))
    (by decide)).2 (by decide)
